import Mathlib

/-!
Shallow embedding of `psi4_losc/utils.py` and verification of the spec's
claims about it.

The repository is a set of four adapter functions over an external
quantum-chemistry engine (psi4 / numpy).  The engine objects a call reads
are modelled as explicit context structures holding exactly the data the
Python code extracts from them; numeric values are modelled over `ℚ`
(exact arithmetic in place of floating point).
-/

namespace Losc

/-- Decidable equality of `Except` results, used to evaluate the embedded
functions on concrete inputs. -/
instance exceptDecEq {ε α : Type} [DecidableEq ε] [DecidableEq α] :
    DecidableEq (Except ε α) := fun x y =>
  match x, y with
  | .ok a, .ok b =>
    if h : a = b then .isTrue (by rw [h])
    else .isFalse (fun hc => h (Except.ok.inj hc))
  | .ok _, .error _ => .isFalse (fun hc => Except.noConfusion hc)
  | .error _, .ok _ => .isFalse (fun hc => Except.noConfusion hc)
  | .error e, .error f =>
    if h : e = f then .isTrue (by rw [h])
    else .isFalse (fun hc => h (Except.error.inj hc))

/-! ## Occupation resolver (`form_occ`, utils.py lines 144-181) -/

/-- An orbital selector appearing as a key of an override sub-dictionary:
either a literal integer index or a string such as "homo"/"lumo". -/
inductive OrbI
  | idx (i : Int)
  | sym (s : String)
deriving DecidableEq, Repr

/-- The distinct exception situations of `form_occ`.  The first four model
the `raise Exception(...)` statements with their offending value; `emptyUnpack`
models the `ValueError` raised by `idx, occ = zip(*idx_occ)` when a spin
channel's item list is empty (zip() of nothing cannot be unpacked into two
variables). -/
inductive OccError
  | invalidChannel (k : String)
  | invalidSelector (s : String)
  | outOfRange (i : Int)
  | invalidOccupation (v : ℚ)
  | emptyUnpack
deriving DecidableEq, Repr

/-- The data `form_occ` reads from its `wfn` argument:
`wfn.basisset().nbf()`, `wfn.nalpha()`, `wfn.nbeta()`. -/
structure OccCtx where
  nbf : Nat
  nalpha : Nat
  nbeta : Nat
deriving DecidableEq, Repr

/-- `{i: 1 for i in range(n)}` — the aufbau occupation dictionary of one
spin channel, as an insertion-ordered association list. -/
def aufbau (n : Nat) : List (Int × ℚ) :=
  (List.range n).map (fun i => (Int.ofNat i, (1 : ℚ)))

/-- `d[k] = v` on a Python dict modelled as an insertion-ordered
association list: an existing key keeps its position and gets the new
value, a new key is appended. -/
def upsert (m : List (Int × ℚ)) (k : Int) (v : ℚ) : List (Int × ℚ) :=
  if m.any (fun p => p.1 == k) then
    m.map (fun p => if p.1 = k then (k, v) else p)
  else
    m ++ [(k, v)]

/-- Python's `str.lower()`, at the ASCII level at which the code compares
channel keys and selectors: lowercase every character of the string. -/
def pyLower (s : String) : String := ⟨s.data.map Char.toLower⟩

/-- utils.py lines 156-163: resolve a selector to an integer orbital index
for a channel with `ns` electrons.  A string is lowercased, must be
"homo" or "lumo", and resolves to `ns - 1` resp. `ns` (over `Int`, as
Python ints). -/
def resolveOrb (ns : Nat) (orb : OrbI) : Except OccError Int :=
  match orb with
  | .idx i => .ok i
  | .sym s =>
    if pyLower s ∉ ["homo", "lumo"] then .error (.invalidSelector (pyLower s))
    else if pyLower s = "homo" then .ok ((ns : Int) - 1)
    else .ok (ns : Int)

/-- utils.py lines 155-168, one iteration of `for orb_i, occ_i in v.items()`:
resolve the selector, check `orb_i >= nbf`, check `0 <= occ_i <= 1`,
then `rst_occ[s][orb_i] = occ_i`. -/
def procOne (nbf ns : Nat) (m : List (Int × ℚ)) (e : OrbI × ℚ) :
    Except OccError (List (Int × ℚ)) := do
  let i ← resolveOrb ns e.1
  if i ≥ (nbf : Int) then .error (.outOfRange i)
  else if ¬(0 ≤ e.2 ∧ e.2 ≤ 1) then .error (.invalidOccupation e.2)
  else .ok (upsert m i e.2)

/-- The whole inner loop `for orb_i, occ_i in v.items()` over one override
sub-dictionary. -/
def procEntries (nbf ns : Nat) (m : List (Int × ℚ)) (es : List (OrbI × ℚ)) :
    Except OccError (List (Int × ℚ)) :=
  es.foldlM (procOne nbf ns) m

/-- utils.py lines 149-168, one iteration of `for k, v in occ.items()`:
lowercase the channel key, require it to be in `['alpha', 'beta']`
(else the invalid-channel exception), pick `s = spin_chanel.index(k)` and
`nelec[s]`, and run the inner loop on `rst_occ[s]`. -/
def stepOcc (nbf na nb : Nat)
    (st : List (Int × ℚ) × List (Int × ℚ)) (kv : String × List (OrbI × ℚ)) :
    Except OccError (List (Int × ℚ) × List (Int × ℚ)) :=
  if pyLower kv.1 = "alpha" then
    (procEntries nbf na st.1 kv.2).map (fun m => (m, st.2))
  else if pyLower kv.1 = "beta" then
    (procEntries nbf nb st.2 kv.2).map (fun m => (st.1, m))
  else .error (.invalidChannel (pyLower kv.1))

/-- Python's `<=` on the `(int, float)` pairs compared by `idx_occ.sort()`:
lexicographic on the pair. -/
def pairLe (a b : Int × ℚ) : Prop :=
  a.1 < b.1 ∨ (a.1 = b.1 ∧ a.2 ≤ b.2)

instance decPairLe : DecidableRel pairLe := fun a b =>
  inferInstanceAs (Decidable (a.1 < b.1 ∨ (a.1 = b.1 ∧ a.2 ≤ b.2)))

instance : IsTotal (Int × ℚ) pairLe :=
  ⟨fun a b => by
    rcases lt_trichotomy a.1 b.1 with h | h | h
    · exact Or.inl (Or.inl h)
    · rcases le_total a.2 b.2 with h2 | h2
      · exact Or.inl (Or.inr ⟨h, h2⟩)
      · exact Or.inr (Or.inr ⟨h.symm, h2⟩)
    · exact Or.inr (Or.inl h)⟩

instance : IsTrans (Int × ℚ) pairLe :=
  ⟨fun a b c hab hbc => by
    rcases hab with h1 | ⟨h1, h1'⟩ <;> rcases hbc with h2 | ⟨h2, h2'⟩
    · exact Or.inl (h1.trans h2)
    · exact Or.inl (h2 ▸ h1)
    · exact Or.inl (h1 ▸ h2)
    · exact Or.inr ⟨h1.trans h2, h1'.trans h2'⟩⟩

/-- utils.py lines 172-177, one iteration of `for d in rst_occ`:
`idx_occ = list(d.items()); idx_occ.sort(); idx, occ = zip(*idx_occ)`.
The sort is stable and compares `(index, value)` tuples lexicographically;
unpacking `zip()` of an empty list raises a `ValueError`. -/
def finalize (m : List (Int × ℚ)) : Except OccError (List Int × List ℚ) :=
  if List.insertionSort pairLe m = [] then .error .emptyUnpack
  else .ok ((List.insertionSort pairLe m).map Prod.fst,
    (List.insertionSort pairLe m).map Prod.snd)

/-- utils.py lines 144-181, `form_occ(wfn, occ={})`.  The override dict is
an insertion-ordered association list of
(channel key, list of (selector, occupation value)) entries.  Returns
`(nocc, occ_idx, occ_val)` with the alpha channel first. -/
def form_occ (ctx : OccCtx) (occ : List (String × List (OrbI × ℚ))) :
    Except OccError (List Nat × List (List Int) × List (List ℚ)) := do
  let st ← occ.foldlM (stepOcc ctx.nbf ctx.nalpha ctx.nbeta)
    (aufbau ctx.nalpha, aufbau ctx.nbeta)
  let fa ← finalize st.1
  let fb ← finalize st.2
  .ok ([fa.1.length, fb.1.length], [fa.1, fb.1], [fa.2, fb.2])

/-- The default value of the `occ` parameter in `def form_occ(wfn, occ={})`:
an empty override dict. -/
def occDefault : List (String × List (OrbI × ℚ)) := []

/-! ## Grid assemblers (`form_grid_lo`, `form_grid_w`, utils.py lines 40-142) -/

/-- The error raised by the `isinstance(wfn, psi4.core.HF)` contract check
shared by `form_grid_lo` and `form_grid_w`; it carries the exception's
message string. -/
inductive GridError
  | wrongType (msg : String)
deriving DecidableEq, Repr

/-- The exception message of the contract check, verbatim from utils.py
lines 58 and 123. -/
def wrongTypeMsg : String :=
  "Unknown type of argument wfn. It has to be the type of psi4.core.HF."

/-- One grid block as the two functions read it from the engine:
`block.npoints()`, `block.w()`, `block.functions_local_to_global()`, and
the computed AO values `points_func.basis_values()["PHI"]` for this block
(point index × local AO index). -/
structure Block where
  npoints : Nat
  w : List ℚ
  lpos : List Nat
  phi : Nat → Nat → ℚ

/-- The data the two grid functions read from their `wfn` argument:
whether the Python object is an instance of `psi4.core.HF`, the
engine-reported total point count `Vpot.grid().npoints()`, and the list of
grid blocks `Vpot.get_block(b)` for `b in range(Vpot.nblocks())`, in
engine order. -/
structure GridCtx where
  isHF : Bool
  npts : Nat
  blocks : List Block

/-- The engine's own consistency guarantees about a grid, which the Python
code relies on: the block point counts sum to the reported total, and each
block's weight vector has one entry per point of the block. -/
def GridCtx.WellFormed (g : GridCtx) : Prop :=
  g.npts = (g.blocks.map Block.npoints).sum ∧
  ∀ b ∈ g.blocks, b.w.length = b.npoints

instance (g : GridCtx) : Decidable g.WellFormed :=
  inferInstanceAs (Decidable (_ ∧ _))

/-- The LO coefficient matrix argument `C_lo`, a numpy array of shape
`[nbasis, nlo]`; `ncols` is `C_lo.shape[1]`. -/
structure CMat where
  nbasis : Nat
  ncols : Nat
  entry : Nat → Nat → ℚ

/-- utils.py lines 92-95 for one block: the rows
`grid_ao.dot(C_lo[lpos, :])` written for this block, where
`grid_ao = PHI[:npoints, :len(lpos)]`.  Row `p` (a grid point of the
block), column `j` (an LO) holds
`sum over t of phi[p][t] * C_lo[lpos[t]][j]`. -/
def blockRows (blk : Block) (C : CMat) : List (List ℚ) :=
  (List.range blk.npoints).map fun p =>
    (List.range C.ncols).map fun j =>
      (((List.range blk.lpos.length).map fun t =>
        blk.phi p t * C.entry (blk.lpos.getD t 0) j)).sum

/-- numpy's in-place slice assignment `a[c:c+len(xs)] = xs` on a 1-D array
(resp. row range of a 2-D array), for the in-bounds writes the loops
perform; numpy would raise on a shape mismatch, which grid well-formedness
rules out. -/
def writeRange (l : List α) (c : Nat) (xs : List α) : List α :=
  l.take c ++ xs ++ l.drop (c + xs.length)

/-- The common loop shape of utils.py lines 79-98 and 131-140: start from
a zero-filled array, visit the blocks in engine order, write each block's
contribution at the running offset `npts_count`, and advance the offset by
`block.npoints()`. -/
def fillRanges (bs : List Block) (init : List α) (f : Block → List α) : List α :=
  (bs.foldl (fun acc blk => (writeRange acc.1 acc.2 (f blk), acc.2 + blk.npoints))
    (init, 0)).1

/-- utils.py lines 40-100, `form_grid_lo(wfn, C_lo)`: the contract check,
then `grid_lo = np.zeros((npts, nlo))` filled block by block with
`grid_ao.dot(C_lo[lpos, :])`. -/
def form_grid_lo (wfn : GridCtx) (C_lo : CMat) : Except GridError (List (List ℚ)) :=
  if wfn.isHF = false then .error (.wrongType wrongTypeMsg)
  else
    .ok (fillRanges wfn.blocks
      (List.replicate wfn.npts (List.replicate C_lo.ncols (0 : ℚ)))
      (fun blk => blockRows blk C_lo))

/-- utils.py lines 103-142, `form_grid_w(wfn)`: the contract check, then
`grid_w = np.zeros((npts,))` filled block by block with `block.w()`. -/
def form_grid_w (wfn : GridCtx) : Except GridError (List ℚ) :=
  if wfn.isHF = false then .error (.wrongType wrongTypeMsg)
  else
    .ok (fillRanges wfn.blocks (List.replicate wfn.npts (0 : ℚ)) Block.w)

/-! ## Density-fitting builder (`form_df_basis_matrix`, utils.py lines 5-37) -/

/-- The failures of `np.linalg.inv` (both are `LinAlgError`): a singular
input, and an input with fewer than two dimensions ("array must be at
least two-dimensional"). -/
inductive DFError
  | singular
  | notTwoDimensional
deriving DecidableEq, Repr

/-- The data `form_df_basis_matrix` obtains from the engine, with
`naux` fitting-basis functions and `nbasis` orbital-basis functions:
the raw four-index results of `mints.ao_eri(aux_bas, zero_bas, basis, basis)`
and `mints.ao_eri(aux_bas, zero_bas, aux_bas, zero_bas)`.  The zero basis
contributes the singleton `Fin 1` axes that `np.squeeze` drops. -/
structure DFCtx (naux nbasis : Nat) where
  eri3 : Fin naux → Fin 1 → Fin nbasis → Fin nbasis → ℚ
  eri2 : Fin naux → Fin 1 → Fin naux → Fin 1 → ℚ

/-- The shape of `np.squeeze(a)` for an array of shape `shape`:
`np.squeeze` removes every axis of length 1 (not merely chosen ones), so
for one fitting-basis function the two-center tensor of shape
`(1, 1, 1, 1)` collapses all the way to a 0-dimensional array. -/
def npSqueezeShape (shape : List Nat) : List Nat :=
  shape.filter (fun d => d != 1)

/-- The element content of `np.squeeze` applied to the three-center
tensor: squeezing permutes no data, it only drops length-1 axes, so the
elements are those of the raw tensor with the placeholder axis fixed at
its only index.  (The numpy shape of the result is
`npSqueezeShape [naux, 1, nbasis, nbasis]`; nothing in this function
consumes that shape, the tensor is returned as data.) -/
def squeeze3 (t : Fin naux → Fin 1 → Fin nbasis → Fin nbasis → ℚ) :
    Fin naux → Fin nbasis → Fin nbasis → ℚ :=
  fun p m n => t p 0 m n

/-- The element content of `np.squeeze` applied to the two-center tensor,
indexed by the two fitting-basis axes.  The numpy shape of the squeezed
array is `npSqueezeShape [naux, 1, naux, 1]`: the square `(naux, naux)`
metric when `naux ≠ 1`, but a 0-dimensional scalar when `naux = 1`. -/
def squeeze2 (t : Fin naux → Fin 1 → Fin naux → Fin 1 → ℚ) :
    Matrix (Fin naux) (Fin naux) ℚ :=
  Matrix.of fun p q => t p 0 q 0

/-- `np.linalg.inv`, idealized over exact arithmetic, applied to an array
whose numpy shape is `shape` and whose element content is `A`: it raises
`LinAlgError` when the array has fewer than two dimensions, raises
`LinAlgError` on a singular input, and otherwise returns the dense
inverse, computed as `det⁻¹ • adjugate`, the standard closed form. -/
def npLinalgInv (shape : List Nat) (A : Matrix (Fin k) (Fin k) ℚ) :
    Except DFError (Matrix (Fin k) (Fin k) ℚ) :=
  if shape.length < 2 then .error .notTwoDimensional
  else if A.det = 0 then .error .singular
  else .ok ((A.det)⁻¹ • A.adjugate)

/-- utils.py lines 5-37, `form_df_basis_matrix(wfn)`: build the two raw
tensors, squeeze them, invert the squeezed two-center metric with
`np.linalg.inv`, and return the pair `(df_pmn, df_Vpq_inv)`. -/
def form_df_basis_matrix (ctx : DFCtx naux nbasis) :
    Except DFError ((Fin naux → Fin nbasis → Fin nbasis → ℚ) ×
      Matrix (Fin naux) (Fin naux) ℚ) := do
  let df_Vpq_inv ← npLinalgInv (npSqueezeShape [naux, 1, naux, 1]) (squeeze2 ctx.eri2)
  .ok (squeeze3 ctx.eri3, df_Vpq_inv)

/-! ## Helper lemmas -/

theorem exceptBind_ok (a : α) (f : α → Except ε β) :
    (Except.ok a >>= f) = f a := rfl

theorem exceptBind_err (e : ε) (f : α → Except ε β) :
    ((Except.error e : Except ε α) >>= f) = .error e := rfl

theorem exceptMap_ok (f : α → β) (a : α) :
    (Except.ok a : Except ε α).map f = .ok (f a) := rfl

theorem exceptMap_err (f : α → β) (e : ε) :
    (Except.error e : Except ε α).map f = .error e := rfl

/-- The keys of one channel's occupation map are pairwise distinct, as in a
Python dict. -/
def KeysNodup (m : List (Int × ℚ)) : Prop := (m.map Prod.fst).Nodup

theorem keysNodup_aufbau (n : Nat) : KeysNodup (aufbau n) := by
  unfold KeysNodup aufbau
  rw [List.map_map]
  have h : (Prod.fst ∘ fun i : Nat => (Int.ofNat i, (1 : ℚ))) =
      fun i : Nat => Int.ofNat i := rfl
  rw [h]
  exact List.Nodup.map (fun a b hab => Int.ofNat.inj hab) (List.nodup_range n)

theorem aufbau_ne_nil {n : Nat} (hn : 0 < n) : aufbau n ≠ [] := by
  unfold aufbau
  intro hc
  rw [List.map_eq_nil_iff, List.range_eq_nil] at hc
  omega

theorem mem_aufbau {p : Int × ℚ} {n : Nat} (hp : p ∈ aufbau n) :
    ∃ j : Nat, j < n ∧ p = (Int.ofNat j, (1 : ℚ)) := by
  unfold aufbau at hp
  obtain ⟨j, hj, hpj⟩ := List.mem_map.mp hp
  exact ⟨j, List.mem_range.mp hj, hpj.symm⟩

theorem map_fst_upsert (m : List (Int × ℚ)) (k : Int) (v : ℚ) :
    (upsert m k v).map Prod.fst =
      if m.any (fun p => p.1 == k) then m.map Prod.fst
      else m.map Prod.fst ++ [k] := by
  unfold upsert
  split
  · rw [List.map_map]
    congr 1
    funext p
    by_cases hp : p.1 = k <;> simp [hp]
  · simp

theorem keysNodup_upsert {m : List (Int × ℚ)} (k : Int) (v : ℚ)
    (h : KeysNodup m) : KeysNodup (upsert m k v) := by
  unfold KeysNodup
  rw [map_fst_upsert]
  split
  · exact h
  · rename_i hany
    rw [Bool.not_eq_true, List.any_eq_false] at hany
    refine List.Nodup.append h (List.nodup_singleton k) ?_
    intro x hx hx'
    obtain ⟨p, hp, rfl⟩ := List.mem_map.mp hx
    have := hany p hp
    simp only [List.mem_singleton] at hx'
    simp [hx'] at this

theorem upsert_ne_nil (m : List (Int × ℚ)) (k : Int) (v : ℚ) :
    upsert m k v ≠ [] := by
  unfold upsert
  split
  · rename_i hany
    rw [List.any_eq_true] at hany
    obtain ⟨p, hp, _⟩ := hany
    cases m with
    | nil => cases hp
    | cons a t => simp
  · simp

theorem mem_upsert_self (m : List (Int × ℚ)) (k : Int) (v : ℚ) :
    (k, v) ∈ upsert m k v := by
  unfold upsert
  split
  · rename_i hany
    rw [List.any_eq_true] at hany
    obtain ⟨p, hp, hpk⟩ := hany
    refine List.mem_map.mpr ⟨p, hp, ?_⟩
    have hk : p.1 = k := by simpa using hpk
    simp [hk]
  · exact List.mem_append_right _ (by simp)

theorem procOne_ok {nbf ns : Nat} {m m' : List (Int × ℚ)} {e : OrbI × ℚ}
    (h : procOne nbf ns m e = .ok m') :
    ∃ i, resolveOrb ns e.1 = .ok i ∧ ¬((nbf : Int) ≤ i) ∧
      (0 ≤ e.2 ∧ e.2 ≤ 1) ∧ m' = upsert m i e.2 := by
  unfold procOne at h
  cases hres : resolveOrb ns e.1 with
  | error er => rw [hres, exceptBind_err] at h; cases h
  | ok i =>
    rw [hres, exceptBind_ok] at h
    split at h
    · cases h
    · split at h
      · cases h
      · rename_i h1 h2
        rw [not_not] at h2
        exact ⟨i, rfl, h1, h2, (Except.ok.inj h).symm⟩

theorem procEntries_keysNodup {nbf ns : Nat} :
    ∀ (es : List (OrbI × ℚ)) (m m' : List (Int × ℚ)), KeysNodup m →
      procEntries nbf ns m es = .ok m' → KeysNodup m' := by
  intro es
  induction es with
  | nil =>
    intro m m' hm h
    cases Except.ok.inj h
    exact hm
  | cons e es ih =>
    intro m m' hm h
    unfold procEntries at h
    rw [List.foldlM_cons] at h
    cases hp : procOne nbf ns m e with
    | error er => rw [hp, exceptBind_err] at h; cases h
    | ok m1 =>
      rw [hp, exceptBind_ok] at h
      obtain ⟨i, -, -, -, heq⟩ := procOne_ok hp
      exact ih m1 m' (by rw [heq]; exact keysNodup_upsert i e.2 hm) h

theorem stepOcc_keysNodup {nbf na nb : Nat}
    {st st' : List (Int × ℚ) × List (Int × ℚ)} {kv : String × List (OrbI × ℚ)}
    (h1 : KeysNodup st.1) (h2 : KeysNodup st.2)
    (h : stepOcc nbf na nb st kv = .ok st') :
    KeysNodup st'.1 ∧ KeysNodup st'.2 := by
  unfold stepOcc at h
  split at h
  · cases hp : procEntries nbf na st.1 kv.2 with
    | error er => rw [hp, exceptMap_err] at h; cases h
    | ok m =>
      rw [hp, exceptMap_ok] at h
      cases Except.ok.inj h
      exact ⟨procEntries_keysNodup kv.2 st.1 m h1 hp, h2⟩
  · split at h
    · cases hp : procEntries nbf nb st.2 kv.2 with
      | error er => rw [hp, exceptMap_err] at h; cases h
      | ok m =>
        rw [hp, exceptMap_ok] at h
        cases Except.ok.inj h
        exact ⟨h1, procEntries_keysNodup kv.2 st.2 m h2 hp⟩
    · cases h

theorem foldOcc_keysNodup {nbf na nb : Nat} :
    ∀ (ov : List (String × List (OrbI × ℚ)))
      (st st' : List (Int × ℚ) × List (Int × ℚ)),
      KeysNodup st.1 → KeysNodup st.2 →
      ov.foldlM (stepOcc nbf na nb) st = .ok st' →
      KeysNodup st'.1 ∧ KeysNodup st'.2 := by
  intro ov
  induction ov with
  | nil =>
    intro st st' h1 h2 h
    cases Except.ok.inj h
    exact ⟨h1, h2⟩
  | cons kv ov ih =>
    intro st st' h1 h2 h
    rw [List.foldlM_cons] at h
    cases hs : stepOcc nbf na nb st kv with
    | error er => rw [hs, exceptBind_err] at h; cases h
    | ok st1 =>
      rw [hs, exceptBind_ok] at h
      obtain ⟨h1', h2'⟩ := stepOcc_keysNodup h1 h2 hs
      exact ih st1 st' h1' h2' h

theorem finalize_of_ne_nil {m : List (Int × ℚ)} (h : m ≠ []) :
    finalize m = .ok ((List.insertionSort pairLe m).map Prod.fst,
      (List.insertionSort pairLe m).map Prod.snd) := by
  have hl : List.insertionSort pairLe m ≠ [] := by
    intro hc
    have hperm := List.perm_insertionSort pairLe m
    rw [hc] at hperm
    exact h hperm.symm.eq_nil
  unfold finalize
  rw [if_neg hl]

theorem finalize_ok_inv {m : List (Int × ℚ)} {idx : List Int} {val : List ℚ}
    (h : finalize m = .ok (idx, val)) :
    idx = (List.insertionSort pairLe m).map Prod.fst ∧
    val = (List.insertionSort pairLe m).map Prod.snd := by
  unfold finalize at h
  split at h
  · cases h
  · have heq := Except.ok.inj h
    exact ⟨(congrArg Prod.fst heq).symm, (congrArg Prod.snd heq).symm⟩

theorem finalize_sorted {m : List (Int × ℚ)} {idx : List Int} {val : List ℚ}
    (hm : KeysNodup m) (h : finalize m = .ok (idx, val)) :
    List.Sorted (· < ·) idx ∧ val.length = idx.length := by
  obtain ⟨hidx, hval⟩ := finalize_ok_inv h
  have hsorted : List.Sorted pairLe (List.insertionSort pairLe m) :=
    List.sorted_insertionSort pairLe m
  have hperm : List.Perm (List.insertionSort pairLe m) m :=
    List.perm_insertionSort pairLe m
  have hnodup : ((List.insertionSort pairLe m).map Prod.fst).Nodup :=
    (hperm.map Prod.fst).nodup_iff.mpr hm
  have hne : (List.insertionSort pairLe m).Pairwise (fun a b => a.1 ≠ b.1) :=
    List.pairwise_map.mp hnodup
  have hlt : (List.insertionSort pairLe m).Pairwise (fun a b => a.1 < b.1) := by
    refine (hsorted.and hne).imp ?_
    rintro a b ⟨hle, hab⟩
    rcases hle with h1 | ⟨h1, _⟩
    · exact h1
    · exact absurd h1 hab
  constructor
  · rw [hidx]
    exact List.pairwise_map.mpr hlt
  · rw [hidx, hval]
    simp

theorem head_of_sorted_min {l : List (Int × ℚ)} {p : Int × ℚ}
    (hs : List.Sorted pairLe l) (hp : p ∈ l)
    (hmin : ∀ q ∈ l, q ≠ p → p.1 < q.1) : l.head? = some p := by
  cases l with
  | nil => cases hp
  | cons a t =>
    by_cases hap : a = p
    · rw [hap]; rfl
    · exfalso
      have hpa : p.1 < a.1 := hmin a (List.mem_cons_self a t) hap
      have hpt : p ∈ t := by
        cases List.mem_cons.mp hp with
        | inl hc => exact absurd hc.symm hap
        | inr hc => exact hc
      have hrel : pairLe a p := List.rel_of_sorted_cons hs p hpt
      rcases hrel with h1 | ⟨h1, _⟩
      · exact absurd h1 (lt_asymm hpa)
      · rw [h1] at hpa
        exact lt_irrefl _ hpa

theorem writeRange_append (pre rest xs : List α) :
    writeRange (pre ++ rest) pre.length xs = pre ++ (xs ++ rest.drop xs.length) := by
  unfold writeRange
  rw [List.take_left, ← List.drop_drop, List.drop_left, List.append_assoc]

theorem fillRanges_go (f : Block → List α) :
    ∀ (bs : List Block) (pre rest : List α),
      (∀ b ∈ bs, (f b).length = b.npoints) →
      rest.length = (bs.map Block.npoints).sum →
      (bs.foldl (fun acc blk => (writeRange acc.1 acc.2 (f blk), acc.2 + blk.npoints))
        (pre ++ rest, pre.length)) =
      (pre ++ (bs.map f).flatten, pre.length + rest.length) := by
  intro bs
  induction bs with
  | nil =>
    intro pre rest hf hlen
    simp only [List.map_nil, List.sum_nil] at hlen
    rw [List.length_eq_zero.mp hlen]
    simp
  | cons b bs ih =>
    intro pre rest hf hlen
    rw [List.foldl_cons]
    have hfb : (f b).length = b.npoints := hf b (List.mem_cons_self b bs)
    simp only [List.map_cons, List.sum_cons] at hlen
    have hstate : (writeRange (pre ++ rest) pre.length (f b), pre.length + b.npoints)
        = ((pre ++ f b) ++ rest.drop b.npoints, (pre ++ f b).length) := by
      rw [writeRange_append, List.length_append, hfb, List.append_assoc]
    rw [hstate,
      ih (pre ++ f b) (rest.drop b.npoints)
        (fun b' hb' => hf b' (List.mem_cons_of_mem b hb'))
        (by rw [List.length_drop, hlen]; omega)]
    rw [Prod.mk.injEq]
    constructor
    · rw [List.map_cons, List.flatten_cons, List.append_assoc]
    · rw [List.length_append, List.length_drop, hfb, hlen]
      omega

theorem fillRanges_eq (bs : List Block) (init : List α) (f : Block → List α)
    (hf : ∀ b ∈ bs, (f b).length = b.npoints)
    (hlen : init.length = (bs.map Block.npoints).sum) :
    fillRanges bs init f = (bs.map f).flatten := by
  unfold fillRanges
  have h0 : ((init, 0) : List α × Nat) = (([] : List α) ++ init, ([] : List α).length) := by
    simp
  rw [h0, fillRanges_go f bs [] init hf hlen]
  simp

theorem flatten_align {α β : Type _} :
    ∀ (as : List (List α)) (bs : List (List β)),
      as.map List.length = bs.map List.length →
      ∀ i, i < (as.map List.length).sum →
      ∃ b la lb p, as[b]? = some la ∧ bs[b]? = some lb ∧ p < la.length ∧
        i = ((as.take b).map List.length).sum + p ∧
        as.flatten[i]? = la[p]? ∧ bs.flatten[i]? = lb[p]? := by
  intro as
  induction as with
  | nil =>
    intro bs h i hi
    simp at hi
  | cons la as ih =>
    intro bs h i hi
    cases bs with
    | nil => simp at h
    | cons lb bs =>
      rw [List.map_cons, List.map_cons, List.cons.injEq] at h
      obtain ⟨hlen, h⟩ := h
      by_cases hcase : i < la.length
      · refine ⟨0, la, lb, i, by simp, by simp, hcase, by simp, ?_, ?_⟩
        · rw [List.flatten_cons, List.getElem?_append_left hcase]
        · rw [List.flatten_cons, List.getElem?_append_left (hlen ▸ hcase)]
      · push_neg at hcase
        have hi' : i - la.length < (as.map List.length).sum := by
          rw [List.map_cons, List.sum_cons] at hi
          omega
        obtain ⟨b, la', lb', p, h1, h2, h3, h4, h5, h6⟩ := ih bs h (i - la.length) hi'
        refine ⟨b + 1, la', lb', p, by simpa using h1, by simpa using h2, h3, ?_, ?_, ?_⟩
        · rw [List.take_succ_cons, List.map_cons, List.sum_cons]
          omega
        · rw [List.flatten_cons, List.getElem?_append_right hcase, h5]
        · rw [List.flatten_cons, List.getElem?_append_right (hlen ▸ hcase), ← hlen, h6]

/-! ## Claim theorems -/

/-- C1: each malformed override entry raises the matching error (invalid
channel, invalid selector, out-of-range index, invalid occupation), but the
final clause of the claim — that a result is returned whenever every entry
is well-formed — fails on the code: with a spin channel of zero electrons
and no override for it, `zip(*idx_occ)` unpacking raises a `ValueError`
even though the (empty) override set is entirely well-formed.  The last
conjunct evaluates the code at that failing input. -/
theorem form_occ_validation_code_bug :
    form_occ ⟨10, 5, 5⟩ [("gamma", [(.idx 0, 1)])] =
      .error (.invalidChannel "gamma") ∧
    form_occ ⟨10, 5, 5⟩ [("alpha", [(.sym "middle", 1)])] =
      .error (.invalidSelector "middle") ∧
    form_occ ⟨10, 5, 5⟩ [("alpha", [(.idx 10, 1)])] =
      .error (.outOfRange 10) ∧
    form_occ ⟨10, 5, 5⟩ [("alpha", [(.idx 3, mkRat 3 2)])] =
      .error (.invalidOccupation (mkRat 3 2)) ∧
    form_occ ⟨2, 0, 1⟩ [] = .error .emptyUnpack := by
  refine ⟨by decide, by decide, by decide, by decide, by decide⟩

/-- C3: the aufbau default.  The claim says every context with an empty
override set yields, per channel with electron count n, exactly indices
0..n-1 with value 1; but for a channel with zero electrons the code raises
a `ValueError` from unpacking `zip()` of an empty item list instead of
returning the empty index/value lists.  This theorem evaluates the code at
such a failing input (nbf=2, nalpha=1, nbeta=0, no overrides), and also
shows the claimed behaviour on a positive-count context for contrast. -/
theorem form_occ_aufbau_default_code_bug :
    form_occ ⟨2, 1, 0⟩ [] = .error .emptyUnpack ∧
    form_occ ⟨4, 2, 3⟩ [] = .ok ([2, 3], [[0, 1], [0, 1, 2]],
      [[1, 1], [1, 1, 1]]) := by
  refine ⟨by decide, by decide⟩

/-- C2: "homo" resolves to electron_count - 1 and "lumo" to electron_count
for the named channel, matched case-insensitively, and the worked example
(nbf=10, nalpha=nbeta=5, override alpha.homo=0.5 alpha.lumo=0.3) produces
alpha indices 0..5 with values 1,1,1,1,0.5,0.3 and beta indices 0..4 all
with value 1. -/
theorem form_occ_homo_lumo_resolution :
    (∀ (ns : Nat) (s : String), pyLower s = "homo" →
      resolveOrb ns (.sym s) = .ok ((ns : Int) - 1)) ∧
    (∀ (ns : Nat) (s : String), pyLower s = "lumo" →
      resolveOrb ns (.sym s) = .ok (ns : Int)) ∧
    form_occ ⟨10, 5, 5⟩
        [("alpha", [(.sym "homo", mkRat 1 2), (.sym "lumo", mkRat 3 10)])] =
      .ok ([6, 5], [[0, 1, 2, 3, 4, 5], [0, 1, 2, 3, 4]],
        [[1, 1, 1, 1, mkRat 1 2, mkRat 3 10], [1, 1, 1, 1, 1]]) := by
  have hsym : ∀ (ns : Nat) (s : String), resolveOrb ns (.sym s) =
      if pyLower s ∉ ["homo", "lumo"] then .error (.invalidSelector (pyLower s))
      else if pyLower s = "homo" then .ok ((ns : Int) - 1)
      else .ok (ns : Int) := fun _ _ => rfl
  refine ⟨?_, ?_, by decide⟩
  · intro ns s hs
    rw [hsym, hs, if_neg (by decide), if_pos rfl]
  · intro ns s hs
    rw [hsym, hs, if_neg (by decide), if_neg (by decide)]

/-- C2 witness: the general resolution clauses applied at the concrete
case-variant selectors "HOMO" and "Lumo" with five electrons. -/
theorem form_occ_homo_lumo_resolution_witness :
    resolveOrb 5 (.sym "HOMO") = .ok ((5 : Int) - 1) ∧
    resolveOrb 5 (.sym "Lumo") = .ok ((5 : Nat) : Int) :=
  ⟨form_occ_homo_lumo_resolution.1 5 "HOMO" (by decide),
   form_occ_homo_lumo_resolution.2.1 5 "Lumo" (by decide)⟩

/-- C8: the occupation resolver is deterministic — its output is a function
of the context values (basis size and electron counts) and of the override
mapping alone, so two calls with identical inputs agree; in particular
repeated calls with the default empty override mapping agree.  (The Python
function writes to no external state: `rst_occ` is freshly built per call
and the `occ` argument is only read.) -/
theorem form_occ_deterministic (ctx ctx' : OccCtx)
    (ov ov' : List (String × List (OrbI × ℚ)))
    (h1 : ctx.nbf = ctx'.nbf) (h2 : ctx.nalpha = ctx'.nalpha)
    (h3 : ctx.nbeta = ctx'.nbeta) (h4 : ov = ov') :
    form_occ ctx ov = form_occ ctx' ov' ∧
    form_occ ctx occDefault = form_occ ctx' occDefault := by
  cases ctx
  cases ctx'
  simp only at h1 h2 h3
  subst h1
  subst h2
  subst h3
  subst h4
  exact ⟨rfl, rfl⟩

/-- C4: on every successful call, the result is three parallel per-channel
structures in the order alpha then beta: per channel a strictly ascending
index list, a value list of the same length pairing positionally with it,
and a count equal to that common length. -/
theorem form_occ_parallel_sorted (ctx : OccCtx)
    (ov : List (String × List (OrbI × ℚ)))
    (nocc : List Nat) (idxs : List (List Int)) (vals : List (List ℚ))
    (h : form_occ ctx ov = .ok (nocc, idxs, vals)) :
    ∃ ia ib va vb, nocc = [ia.length, ib.length] ∧ idxs = [ia, ib] ∧
      vals = [va, vb] ∧
      List.Sorted (· < ·) ia ∧ List.Sorted (· < ·) ib ∧
      va.length = ia.length ∧ vb.length = ib.length := by
  unfold form_occ at h
  cases hf : ov.foldlM (stepOcc ctx.nbf ctx.nalpha ctx.nbeta)
      (aufbau ctx.nalpha, aufbau ctx.nbeta) with
  | error e => rw [hf, exceptBind_err] at h; cases h
  | ok st =>
    rw [hf, exceptBind_ok] at h
    obtain ⟨hn1, hn2⟩ := foldOcc_keysNodup ov _ st
      (keysNodup_aufbau _) (keysNodup_aufbau _) hf
    cases hfa : finalize st.1 with
    | error e => rw [hfa, exceptBind_err] at h; cases h
    | ok fa =>
      obtain ⟨ia, va⟩ := fa
      rw [hfa, exceptBind_ok] at h
      cases hfb : finalize st.2 with
      | error e => rw [hfb, exceptBind_err] at h; cases h
      | ok fb =>
        obtain ⟨ib, vb⟩ := fb
        rw [hfb, exceptBind_ok] at h
        have heq := Except.ok.inj h
        obtain ⟨hsa, hla⟩ := finalize_sorted hn1 hfa
        obtain ⟨hsb, hlb⟩ := finalize_sorted hn2 hfb
        exact ⟨ia, ib, va, vb, (congrArg Prod.fst heq).symm,
          (congrArg (fun t => t.2.1) heq).symm,
          (congrArg (fun t => t.2.2) heq).symm, hsa, hsb, hla, hlb⟩

/-- C4 witness: the parallel-structure theorem applied to a concrete
successful call (nbf=3, one alpha and two beta electrons, one alpha
override). -/
theorem form_occ_parallel_sorted_witness :
    ∃ ia ib va vb, ([2, 2] : List Nat) = [ia.length, ib.length] ∧
      ([[0, 2], [0, 1]] : List (List Int)) = [ia, ib] ∧
      ([[1, mkRat 1 2], [1, 1]] : List (List ℚ)) = [va, vb] ∧
      List.Sorted (· < ·) ia ∧ List.Sorted (· < ·) ib ∧
      va.length = ia.length ∧ vb.length = ib.length :=
  form_occ_parallel_sorted ⟨3, 1, 2⟩ [("alpha", [(.idx 2, mkRat 1 2)])]
    [2, 2] [[0, 2], [0, 1]] [[1, mkRat 1 2], [1, 1]] (by decide)

/-- C8 witness: the determinism theorem applied to two syntactically
distinct but value-identical calls. -/
theorem form_occ_deterministic_witness :
    form_occ ⟨2, 1, 1⟩ [("alpha", [(.idx 0, 1)])] =
      form_occ ⟨2, 1, 1⟩ [("alpha", [(.idx 0, 1)])] ∧
    form_occ ⟨2, 1, 1⟩ occDefault = form_occ ⟨2, 1, 1⟩ occDefault :=
  form_occ_deterministic ⟨2, 1, 1⟩ ⟨2, 1, 1⟩ _ _ rfl rfl rfl rfl

/-- C10: `form_occ` never checks a lower bound on integer selectors: any
integer index strictly below the basis size — in particular any negative
index — passes validation (given an in-range occupation value), is stored
under that index in the channel's map, and a negative index, being
smallest, ends up at the front of the channel's returned index/value
pairing after the ascending sort.  Stated for a single alpha-channel
override on a context whose beta channel is nonempty. -/
theorem form_occ_no_lower_bound (nbf na nb : Nat) (i : Int) (v : ℚ)
    (hi : i < (nbf : Int)) (hv0 : 0 ≤ v) (hv1 : v ≤ 1) (hnb : 0 < nb) :
    ∃ ia va ib vb,
      form_occ ⟨nbf, na, nb⟩ [("alpha", [(.idx i, v)])] =
        .ok ([ia.length, ib.length], [ia, ib], [va, vb]) ∧
      (i, v) ∈ ia.zip va ∧
      (i < 0 → (ia.zip va).head? = some (i, v)) := by
  have hproc : procOne nbf na (aufbau na) (.idx i, v) =
      .ok (upsert (aufbau na) i v) := by
    unfold procOne
    rw [show resolveOrb na (.idx i) = .ok i from rfl, exceptBind_ok,
      if_neg (not_le.mpr hi), if_neg (not_not_intro ⟨hv0, hv1⟩)]
  have hentries : procEntries nbf na (aufbau na) [(.idx i, v)] =
      .ok (upsert (aufbau na) i v) := by
    unfold procEntries
    rw [List.foldlM_cons, hproc, exceptBind_ok, List.foldlM_nil]
    rfl
  have hstep : stepOcc nbf na nb (aufbau na, aufbau nb) ("alpha", [(.idx i, v)]) =
      .ok (upsert (aufbau na) i v, aufbau nb) := by
    unfold stepOcc
    rw [if_pos (by decide : pyLower "alpha" = "alpha"), hentries, exceptMap_ok]
  have hfold : [("alpha", [(OrbI.idx i, v)])].foldlM (stepOcc nbf na nb)
      (aufbau na, aufbau nb) = .ok (upsert (aufbau na) i v, aufbau nb) := by
    rw [List.foldlM_cons, hstep, exceptBind_ok, List.foldlM_nil]
    rfl
  have hfa := finalize_of_ne_nil (upsert_ne_nil (aufbau na) i v)
  have hfb := finalize_of_ne_nil (aufbau_ne_nil hnb)
  have hzip : ((List.insertionSort pairLe (upsert (aufbau na) i v)).map Prod.fst).zip
        ((List.insertionSort pairLe (upsert (aufbau na) i v)).map Prod.snd) =
      List.insertionSort pairLe (upsert (aufbau na) i v) := by
    rw [List.zip_map',
      show (fun x : Int × ℚ => (x.1, x.2)) = id from rfl, List.map_id]
  have hmem : (i, v) ∈ List.insertionSort pairLe (upsert (aufbau na) i v) :=
    (List.perm_insertionSort pairLe _).mem_iff.mpr (mem_upsert_self _ _ _)
  refine ⟨(List.insertionSort pairLe (upsert (aufbau na) i v)).map Prod.fst,
    (List.insertionSort pairLe (upsert (aufbau na) i v)).map Prod.snd,
    (List.insertionSort pairLe (aufbau nb)).map Prod.fst,
    (List.insertionSort pairLe (aufbau nb)).map Prod.snd, ?_, ?_, ?_⟩
  · unfold form_occ
    rw [hfold, exceptBind_ok, hfa, exceptBind_ok, hfb, exceptBind_ok]
  · rw [hzip]
    exact hmem
  · intro hi0
    rw [hzip]
    refine head_of_sorted_min (List.sorted_insertionSort pairLe _) hmem ?_
    intro q hq hqne
    have hqma : q ∈ upsert (aufbau na) i v :=
      (List.perm_insertionSort pairLe _).mem_iff.mp hq
    have hnotin : ((aufbau na).any (fun p => p.1 == i)) = false := by
      rw [List.any_eq_false]
      intro p hp
      obtain ⟨j, hj, rfl⟩ := mem_aufbau hp
      simp only [beq_iff_eq]
      intro hc
      rw [Int.ofNat_eq_natCast] at hc
      omega
    have hma2 : upsert (aufbau na) i v = aufbau na ++ [(i, v)] := by
      unfold upsert
      rw [if_neg (by rw [hnotin]; exact Bool.false_ne_true)]
    rcases List.mem_append.mp (hma2 ▸ hqma) with hq1 | hq2
    · obtain ⟨j, hj, rfl⟩ := mem_aufbau hq1
      show i < Int.ofNat j
      rw [Int.ofNat_eq_natCast]
      omega
    · rw [List.mem_singleton] at hq2
      exact absurd hq2 hqne

/-- C10 witness: the no-lower-bound theorem applied to the negative index
-2 with occupation one half on a context with basis size 3 and one
electron per channel. -/
theorem form_occ_no_lower_bound_witness :
    ∃ ia va ib vb,
      form_occ ⟨3, 1, 1⟩ [("alpha", [(.idx (-2), mkRat 1 2)])] =
        .ok ([ia.length, ib.length], [ia, ib], [va, vb]) ∧
      ((-2 : Int), mkRat 1 2) ∈ ia.zip va ∧
      ((-2 : Int) < 0 → (ia.zip va).head? = some ((-2 : Int), mkRat 1 2)) :=
  form_occ_no_lower_bound 3 1 1 (-2) (mkRat 1 2) (by decide) (by decide)
    (by decide) (by decide)

/-- C6: for every grid context accepted by the contract check and
consistent with the engine's guarantees, and every coefficient matrix, the
grid-LO matrix has one row per engine-reported grid point, each row with
one entry per column of the coefficient matrix. -/
theorem form_grid_lo_shape (g : GridCtx) (C : CMat)
    (hHF : g.isHF = true) (hwf : g.WellFormed) :
    ∃ M, form_grid_lo g C = .ok M ∧ M.length = g.npts ∧
      ∀ r ∈ M, r.length = C.ncols := by
  have hblk : ∀ b ∈ g.blocks, (blockRows b C).length = b.npoints := by
    intro b _
    unfold blockRows
    rw [List.length_map, List.length_range]
  have heq : form_grid_lo g C =
      .ok ((g.blocks.map (fun b => blockRows b C)).flatten) := by
    unfold form_grid_lo
    rw [if_neg (by simp [hHF]),
      fillRanges_eq _ _ _ hblk (by rw [List.length_replicate, hwf.1])]
  refine ⟨_, heq, ?_, ?_⟩
  · rw [List.length_flatten, hwf.1, List.map_map]
    exact congrArg List.sum (List.map_congr_left hblk)
  · intro r hr
    rw [List.mem_flatten] at hr
    obtain ⟨rows, hrows, hrmem⟩ := hr
    obtain ⟨b, hb, hbr⟩ := List.mem_map.mp hrows
    rw [← hbr] at hrmem
    unfold blockRows at hrmem
    obtain ⟨p, hp, hpr⟩ := List.mem_map.mp hrmem
    rw [← hpr, List.length_map, List.length_range]

/-- C6 witness: the shape theorem applied to a concrete two-point
one-block grid and a one-column coefficient matrix. -/
theorem form_grid_lo_shape_witness :
    ∃ M, form_grid_lo ⟨true, 2, [⟨2, [1, mkRat 1 2], [0], fun _ _ => 1⟩]⟩
        ⟨1, 1, fun _ _ => 1⟩ = .ok M ∧ M.length = 2 ∧
      ∀ r ∈ M, r.length = 1 :=
  form_grid_lo_shape ⟨true, 2, [⟨2, [1, mkRat 1 2], [0], fun _ _ => 1⟩]⟩
    ⟨1, 1, fun _ _ => 1⟩ rfl (by refine ⟨by decide, ?_⟩; decide)

/-- C5: on the same accepted, engine-consistent grid context, the weight
vector has one entry per engine-reported grid point, and for every point
index i the weight-vector entry i and the grid-LO matrix row i come from
the same grid block at the same block-local position: both functions walk
the blocks in the same order and fill the same consecutive ranges. -/
theorem grid_w_lo_alignment (g : GridCtx) (C : CMat)
    (hHF : g.isHF = true) (hwf : g.WellFormed) :
    ∃ wv M, form_grid_w g = .ok wv ∧ form_grid_lo g C = .ok M ∧
      wv.length = g.npts ∧ M.length = g.npts ∧
      ∀ i, i < g.npts →
        ∃ b blk p, g.blocks[b]? = some blk ∧ p < blk.npoints ∧
          i = ((g.blocks.take b).map Block.npoints).sum + p ∧
          wv[i]? = blk.w[p]? ∧ M[i]? = (blockRows blk C)[p]? := by
  have hwblk : ∀ b ∈ g.blocks, (Block.w b).length = b.npoints := hwf.2
  have hlblk : ∀ b ∈ g.blocks, (blockRows b C).length = b.npoints := by
    intro b _
    unfold blockRows
    rw [List.length_map, List.length_range]
  have hw : form_grid_w g = .ok ((g.blocks.map Block.w).flatten) := by
    unfold form_grid_w
    rw [if_neg (by simp [hHF]),
      fillRanges_eq _ _ _ hwblk (by rw [List.length_replicate, hwf.1])]
  have hlo : form_grid_lo g C =
      .ok ((g.blocks.map (fun b => blockRows b C)).flatten) := by
    unfold form_grid_lo
    rw [if_neg (by simp [hHF]),
      fillRanges_eq _ _ _ hlblk (by rw [List.length_replicate, hwf.1])]
  have hmapw : (g.blocks.map Block.w).map List.length =
      g.blocks.map Block.npoints := by
    rw [List.map_map]
    exact List.map_congr_left hwblk
  have hmapl : (g.blocks.map (fun b => blockRows b C)).map List.length =
      g.blocks.map Block.npoints := by
    rw [List.map_map]
    exact List.map_congr_left hlblk
  refine ⟨_, _, hw, hlo, ?_, ?_, ?_⟩
  · rw [List.length_flatten, hmapw, hwf.1]
  · rw [List.length_flatten, hmapl, hwf.1]
  · intro i hi
    have hi' : i < ((g.blocks.map Block.w).map List.length).sum := by
      rw [hmapw, ← hwf.1]
      exact hi
    obtain ⟨b, la, lb, p, h1, h2, h3, h4, h5, h6⟩ :=
      flatten_align (g.blocks.map Block.w)
        (g.blocks.map (fun b => blockRows b C)) (by rw [hmapw, hmapl]) i hi'
    rw [List.getElem?_map] at h1 h2
    cases hblk : g.blocks[b]? with
    | none =>
      rw [hblk] at h1
      cases h1
    | some blk =>
      rw [hblk] at h1 h2
      have hla : blk.w = la := Option.some.inj h1
      have hlb : blockRows blk C = lb := Option.some.inj h2
      have hbmem : blk ∈ g.blocks := List.getElem?_mem hblk
      refine ⟨b, blk, p, hblk, ?_, ?_, ?_, ?_⟩
      · rw [← hwblk blk hbmem, hla]
        exact h3
      · rw [h4]
        congr 1
        rw [← List.map_take, List.map_map]
        exact congrArg List.sum
          (List.map_congr_left (fun x hx => hwblk x (List.take_subset b g.blocks hx)))
      · rw [h5, hla]
      · rw [h6, hlb]

/-- C5 witness: the alignment theorem applied to a concrete two-block grid
(one point then two points) and a one-column coefficient matrix. -/
theorem grid_w_lo_alignment_witness :
    ∃ wv M, form_grid_w ⟨true, 3, [⟨1, [1], [0], fun _ _ => 1⟩,
        ⟨2, [mkRat 1 2, mkRat 1 4], [0], fun _ _ => 1⟩]⟩ = .ok wv ∧
      form_grid_lo ⟨true, 3, [⟨1, [1], [0], fun _ _ => 1⟩,
        ⟨2, [mkRat 1 2, mkRat 1 4], [0], fun _ _ => 1⟩]⟩
        ⟨1, 1, fun _ _ => 1⟩ = .ok M ∧
      wv.length = 3 ∧ M.length = 3 ∧
      ∀ i, i < 3 →
        ∃ b blk p,
          ([⟨1, [1], [0], fun _ _ => 1⟩,
            ⟨2, [mkRat 1 2, mkRat 1 4], [0], fun _ _ => 1⟩] : List Block)[b]? =
              some blk ∧
          p < blk.npoints ∧
          i = ((([⟨1, [1], [0], fun _ _ => 1⟩,
            ⟨2, [mkRat 1 2, mkRat 1 4], [0], fun _ _ => 1⟩] : List Block).take b).map
              Block.npoints).sum + p ∧
          wv[i]? = blk.w[p]? ∧ M[i]? = (blockRows blk ⟨1, 1, fun _ _ => 1⟩)[p]? :=
  grid_w_lo_alignment ⟨true, 3, [⟨1, [1], [0], fun _ _ => 1⟩,
      ⟨2, [mkRat 1 2, mkRat 1 4], [0], fun _ _ => 1⟩]⟩
    ⟨1, 1, fun _ _ => 1⟩ rfl (by refine ⟨by decide, ?_⟩; decide)

/-- C7: both grid functions raise the contract error exactly when the
context is not a psi4.core.HF instance; the check precedes any grid
access, so the outcome for a rejected context is independent of every
other field of the context and of the coefficient argument; and the
message names the expected type psi4.core.HF. -/
theorem grid_type_contract :
    (∀ (g : GridCtx) (C : CMat),
      form_grid_lo g C = .error (.wrongType wrongTypeMsg) ↔ g.isHF = false) ∧
    (∀ g : GridCtx,
      form_grid_w g = .error (.wrongType wrongTypeMsg) ↔ g.isHF = false) ∧
    (∀ (g g' : GridCtx) (C C' : CMat), g.isHF = false → g'.isHF = false →
      form_grid_lo g C = form_grid_lo g' C' ∧ form_grid_w g = form_grid_w g') ∧
    List.IsInfix "psi4.core.HF".data wrongTypeMsg.data := by
  refine ⟨?_, ?_, ?_, ?_⟩
  · intro g C
    unfold form_grid_lo
    constructor
    · intro h
      by_contra hc
      rw [if_neg hc] at h
      cases h
    · intro h
      rw [if_pos h]
  · intro g
    unfold form_grid_w
    constructor
    · intro h
      by_contra hc
      rw [if_neg hc] at h
      cases h
    · intro h
      rw [if_pos h]
  · intro g g' C C' h h'
    unfold form_grid_lo form_grid_w
    rw [if_pos h, if_pos h', if_pos h, if_pos h']
    exact ⟨rfl, rfl⟩
  · show List.IsInfix _ _
    decide

/-- C7 witness: the contract theorem applied to a concrete non-HF context
(both directions of the characterization) and a pair of distinct rejected
contexts mapped to the same error. -/
theorem grid_type_contract_witness :
    form_grid_lo ⟨false, 5, []⟩ ⟨2, 3, fun _ _ => 0⟩ =
      .error (.wrongType wrongTypeMsg) ∧
    form_grid_w ⟨false, 5, []⟩ = .error (.wrongType wrongTypeMsg) ∧
    form_grid_lo ⟨false, 5, []⟩ ⟨2, 3, fun _ _ => 0⟩ =
      form_grid_lo ⟨false, 0, [⟨1, [1], [0], fun _ _ => 1⟩]⟩ ⟨7, 1, fun _ _ => 1⟩ :=
  ⟨(grid_type_contract.1 ⟨false, 5, []⟩ ⟨2, 3, fun _ _ => 0⟩).mpr rfl,
   (grid_type_contract.2.1 ⟨false, 5, []⟩).mpr rfl,
   (grid_type_contract.2.2.1 ⟨false, 5, []⟩ ⟨false, 0, [⟨1, [1], [0], fun _ _ => 1⟩]⟩
     ⟨2, 3, fun _ _ => 0⟩ ⟨7, 1, fun _ _ => 1⟩ rfl rfl).1⟩

/-- C9 counterexample: for a fitting basis of exactly one function the
claim fails.  The raw two-center tensor of shape (1, 1, 1, 1) squeezes to
a 0-dimensional array, so `np.linalg.inv` raises `LinAlgError` ("array
must be at least two-dimensional") and no inverse is returned at all —
even though the metric value 2 is perfectly nonsingular. -/
theorem form_df_single_aux_counterexample :
    (squeeze2 (fun _ _ _ _ => (2 : ℚ)) : Matrix (Fin 1) (Fin 1) ℚ).det ≠ 0 ∧
    form_df_basis_matrix (⟨fun _ _ _ _ => 0, fun _ _ _ _ => 2⟩ : DFCtx 1 1) =
      .error .notTwoDimensional := by
  constructor
  · rw [show ((squeeze2 fun _ _ _ _ => (2 : ℚ)).det) = 2 from
      Matrix.det_fin_one _]
    norm_num
  · rfl

/-- C9 (amended): for every density-fitting context whose fitting basis
does not consist of exactly one function — so the squeezed two-center
metric is a genuine two-dimensional square array — and whose metric is
nonsingular, the second returned value is the dense inverse of that
metric: multiplying the metric by it on either side gives the identity
(exactly, in the exact-arithmetic idealization of the floating-point
computation). -/
theorem form_df_inverse_metric {naux nbasis : Nat} (ctx : DFCtx naux nbasis)
    (hdim : naux ≠ 1) (h : (squeeze2 ctx.eri2).det ≠ 0) :
    ∃ pmn Vinv, form_df_basis_matrix ctx = .ok (pmn, Vinv) ∧
      squeeze2 ctx.eri2 * Vinv = 1 ∧ Vinv * squeeze2 ctx.eri2 = 1 := by
  have hb : (naux != 1) = true := bne_iff_ne.mpr hdim
  have hshape : npSqueezeShape [naux, 1, naux, 1] = [naux, naux] := by
    unfold npSqueezeShape
    simp [List.filter, hb]
  unfold form_df_basis_matrix npLinalgInv
  rw [hshape]
  rw [if_neg (by norm_num), if_neg h, exceptBind_ok]
  refine ⟨_, _, rfl, ?_, ?_⟩
  · rw [Matrix.mul_smul, Matrix.mul_adjugate, smul_smul,
      inv_mul_cancel₀ h, one_smul]
  · rw [Matrix.smul_mul, Matrix.adjugate_mul, smul_smul,
      inv_mul_cancel₀ h, one_smul]

/-- C9 witness: the amended inverse-metric theorem applied to a
two-function fitting basis whose raw two-center tensor is 2 on the
diagonal of the fitting axes, so the squeezed metric is the 2-by-2 matrix
diag(2, 2). -/
theorem form_df_inverse_metric_witness :
    ∃ pmn Vinv,
      form_df_basis_matrix
        (⟨fun _ _ _ _ => 0, fun p _ q _ => if p = q then 2 else 0⟩ :
          DFCtx 2 1) = .ok (pmn, Vinv) ∧
      squeeze2 (fun p _ q _ => if p = q then (2 : ℚ) else 0) * Vinv = 1 ∧
      Vinv * squeeze2 (fun p _ q _ => if p = q then (2 : ℚ) else 0) = 1 :=
  form_df_inverse_metric ⟨fun _ _ _ _ => 0, fun p _ q _ => if p = q then 2 else 0⟩
    (by decide)
    (by rw [show ((squeeze2 fun p _ q _ => if p = q then (2 : ℚ) else 0).det) =
          2 * 2 - 0 * 0 from Matrix.det_fin_two _]
        norm_num)

end Losc
